import Mathlib

set_option linter.unnecessarySeqFocus false

/-!
Verification of the `win32yang` stream-transform core (`src/win32yang.c`).

Shallow embedding conventions:
* bytes are `Nat` values (CR = 13, LF = 10, NUL = 0);
* the input source of `read_file` is a list of chunks, each chunk being the
  byte list that one `ReadFile` call delivered; `ReadFile` never delivers
  more than the requested `szIncr` bytes, which the model renders as
  `List.take` of the current increment;
* `size_t` bookkeeping counters (`szDone`, `szHole`, `szTail`, `szIncr`
  and the allocation size) are `Int`, so that non-negativity — i.e. absence
  of `size_t` underflow — is a provable statement rather than an artifact
  of truncated subtraction;
* pointer writes become list construction: the finalized region of the
  buffer is the list of bytes emitted so far.
-/

namespace Win32Yang

/-- The LF → CRLF expansion pass of `read_file` (lines 166-180) on one chunk.
`c1` is the look-behind byte (`int c1` in the C code): a byte `c` is copied
unchanged when `c1 == CR` or `c != LF`, otherwise the pair CR LF is emitted
in its place. -/
def expandChunk : Nat → List Nat → List Nat
  | _, [] => []
  | c1, c :: rest =>
    if c1 = 13 ∨ c ≠ 10 then c :: expandChunk c rest
    else 13 :: 10 :: expandChunk c rest

/-- The bookkeeping state of `read_file`: finalized bytes `done` (`szDone`),
reserved expansion hole `hole` (`szHole`), free tail `tail` (`szTail`),
current read increment `incr` (`szIncr`) and the allocated buffer size
`alloc` (the size passed to the last `mem_realloc`, 0 before the first). -/
structure RFState where
  done : Int
  hole : Int
  tail : Int
  incr : Int
  alloc : Int
deriving Repr, DecidableEq

/-- Initial state of `read_file`: empty buffer, `szIncr = 2048`. -/
def rfInit : RFState := ⟨0, 0, 0, 2048, 0⟩

/-- The buffer-growth step at the top of the `read_file` loop
(lines 141-148): when `szHole + szTail < szIncr2` the increment doubles, the
tail grows by `2 * szIncr2` and the buffer is reallocated to
`szDone + szHole + szTail`. -/
def rfGrow (crlf : Bool) (st : RFState) : RFState :=
  let incr2 : Int := st.incr + (if crlf then st.incr else 0)
  if st.hole + st.tail < incr2 then
    { done := st.done, hole := st.hole, tail := st.tail + (incr2 + incr2),
      incr := st.incr + st.incr,
      alloc := st.done + st.hole + (st.tail + (incr2 + incr2)) }
  else st

/-- The hole-growth step of `read_file` (lines 150-154): with expansion
enabled, when `szHole < szIncr` the hole is topped up to `szIncr` out of the
tail. -/
def rfHole (crlf : Bool) (st : RFState) : RFState :=
  if crlf = true ∧ st.hole < st.incr then
    { st with hole := st.incr, tail := st.tail - (st.incr - st.hole) }
  else st

/-- Consuming one non-empty chunk delivered by `ReadFile`
(lines 163-183): `szDone` grows by the bytes read, `szTail` shrinks by the
same amount, and with expansion enabled each expanded LF moves one byte
from the hole into the finalized count.  The second component is the byte
sequence the pass writes into the finalized region. -/
def rfConsume (crlf : Bool) (st : RFState) (chunk : List Nat) :
    RFState × List Nat :=
  let out := if crlf then expandChunk 0 chunk else chunk
  let n : Int := chunk.length
  let e : Int := (out.length : Int) - n
  ({ st with done := st.done + n + e, hole := st.hole - e, tail := st.tail - n },
   out)

/-- The `read_file` loop (lines 132-184) over a list of successive
`ReadFile` results.  Each iteration grows the buffer and the hole, reads at
most `szIncr` bytes, stops as soon as a read delivers zero bytes, and
otherwise finalizes the (optionally expanded) chunk and continues. -/
def rfRun (crlf : Bool) : RFState → List (List Nat) → RFState × List Nat
  | st, [] => (st, [])
  | st, d :: rest =>
    let st1 := rfHole crlf (rfGrow crlf st)
    let chunk := d.take st1.incr.toNat
    if chunk.isEmpty then (st1, [])
    else
      let step := rfConsume crlf st1 chunk
      let next := rfRun crlf step.1 rest
      (next.1, step.2 ++ next.2)

/-- The finalized buffer `read_file` returns (`pBuf[0 .. szDone)`). -/
def read_file (crlf : Bool) (src : List (List Nat)) : List Nat :=
  (rfRun crlf rfInit src).2

/-- The CRLF → LF contraction pass of `write_file` (lines 196-214): a
forward scan with one byte of lookahead; a CR immediately followed by LF is
replaced by LF alone, the last byte (if the lookahead window is empty)
passes through unchanged. -/
def contract : List Nat → List Nat
  | [] => []
  | [c] => [c]
  | c :: c2 :: rest =>
    if c = 13 ∧ c2 = 10 then 10 :: contract rest
    else c :: contract (c2 :: rest)

/-- The trailing-zero trim of `write_file` (lines 219-221): the loop
`while (*--pbOut == 0 && --sz)` walks backward from the end dropping zero
bytes, stopping at the first non-zero byte or when `sz` reaches zero. -/
def chopZeros (l : List Nat) : List Nat :=
  (l.reverse.dropWhile (fun b => b == 0)).reverse

/-- `write_file` (lines 192-224): optional in-place contraction, then the
trailing-zero trim, then `WriteFile` of the remaining `sz` bytes —
modelled as `some bytesWritten` — unless `sz` is zero, in which case
nothing is written and the function returns FALSE, modelled as `none`. -/
def write_file (lf : Bool) (buf : List Nat) : Option (List Nat) :=
  let b1 := if lf then contract buf else buf
  let b2 := chopZeros b1
  if b2.isEmpty then none else some b2

/-- `true` iff the list contains an adjacent CR LF pair. -/
def hasCRLF : List Nat → Bool
  | a :: b :: rest => (a == 13 && b == 10) || hasCRLF (b :: rest)
  | _ => false

/-- `true` iff the list contains an adjacent CR CR LF triple. -/
def hasCRCRLF : List Nat → Bool
  | a :: b :: c :: rest => (a == 13 && b == 13 && c == 10) || hasCRCRLF (b :: c :: rest)
  | _ => false

/-- `true` iff, reading the list with `prev` as the byte before its first
element, every LF is immediately preceded by a CR. -/
def noLFAfter (prev : Nat) : List Nat → Bool
  | [] => true
  | c :: rest => (c != 10 || prev == 13) && noLFAfter c rest

/-- The bookkeeping invariant of `read_file` (comment at lines 133-139):
the allocated size is exactly `szDone + szHole + szTail`, hole and tail are
non-negative (no `size_t` underflow), the increment is positive, the hole
never exceeds the increment, and the hole is zero when expansion is
disabled. -/
def RFInv (crlf : Bool) (st : RFState) : Prop :=
  st.alloc = st.done + st.hole + st.tail ∧
  0 ≤ st.hole ∧ 0 ≤ st.tail ∧ 0 < st.incr ∧ st.hole ≤ st.incr ∧
  (crlf = false → st.hole = 0)

instance (crlf : Bool) (st : RFState) : Decidable (RFInv crlf st) := by
  unfold RFInv; infer_instance

/- ------------------------------------------------------------------ -/
/- Helper lemmas                                                       -/
/- ------------------------------------------------------------------ -/

theorem expandChunk_length_le (x : List Nat) :
    ∀ c1, (expandChunk c1 x).length ≤ 2 * x.length := by
  induction x with
  | nil => intro c1; simp [expandChunk]
  | cons c rest ih =>
    intro c1
    by_cases h : c1 = 13 ∨ c ≠ 10
    · rw [expandChunk, if_pos h]
      have := ih c
      simp only [List.length_cons]
      omega
    · rw [expandChunk, if_neg h]
      have := ih c
      simp only [List.length_cons]
      omega

theorem expandChunk_length_ge (x : List Nat) :
    ∀ c1, x.length ≤ (expandChunk c1 x).length := by
  induction x with
  | nil => intro c1; simp [expandChunk]
  | cons c rest ih =>
    intro c1
    by_cases h : c1 = 13 ∨ c ≠ 10
    · rw [expandChunk, if_pos h]
      have := ih c
      simp only [List.length_cons]
      omega
    · rw [expandChunk, if_neg h]
      have := ih c
      simp only [List.length_cons]
      omega

theorem contract_cons_of_ne (c : Nat) (t : List Nat) (h : c ≠ 13) :
    contract (c :: t) = c :: contract t := by
  cases t with
  | nil => rfl
  | cons c2 r =>
    rw [contract, if_neg (fun hp => h hp.1)]

theorem contract_expandChunk (x : List Nat) :
    ∀ c1, c1 ≠ 13 → 13 ∉ x → contract (expandChunk c1 x) = x := by
  induction x with
  | nil => intro c1 _ _; rfl
  | cons c rest ih =>
    intro c1 hc1 hx
    have hcne : c ≠ 13 := fun h => hx (h ▸ List.mem_cons_self c rest)
    have hrest : 13 ∉ rest := fun h => hx (List.mem_cons_of_mem c h)
    by_cases h10 : c = 10
    · subst h10
      rw [expandChunk, if_neg (by simp [hc1])]
      rw [contract, if_pos ⟨rfl, rfl⟩]
      rw [ih 10 (by decide) hrest]
    · rw [expandChunk, if_pos (Or.inr h10)]
      rw [contract_cons_of_ne c _ hcne, ih c hcne hrest]

theorem hasCRLF_cons_of_ne (c : Nat) (l : List Nat) (hc : c ≠ 13)
    (hl : hasCRLF l = false) : hasCRLF (c :: l) = false := by
  cases l with
  | nil => rfl
  | cons b r => simp [hasCRLF, hc, hl]

theorem hasCRCRLF_tail (a : Nat) (l : List Nat)
    (h : hasCRCRLF (a :: l) = false) : hasCRCRLF l = false := by
  match l with
  | [] => rfl
  | [b] => rfl
  | b :: c :: r =>
    rw [hasCRCRLF, Bool.or_eq_false_iff] at h
    exact h.2

theorem contract_head? (c2 : Nat) (r : List Nat) :
    (contract (c2 :: r)).head? =
      some (if c2 = 13 ∧ r.head? = some 10 then 10 else c2) := by
  cases r with
  | nil => simp [contract]
  | cons c3 r' =>
    by_cases hp : c2 = 13 ∧ c3 = 10
    · rw [contract, if_pos hp]
      simp [hp.1, hp.2]
    · rw [contract, if_neg hp]
      simp only [List.head?_cons, List.head?, Option.some_inj]
      rw [if_neg hp]

theorem contract_eq_self : ∀ y : List Nat, hasCRLF y = false → contract y = y
  | [], _ => rfl
  | [_], _ => rfl
  | c :: c2 :: r, h => by
    rw [hasCRLF, Bool.or_eq_false_iff] at h
    have hp : ¬(c = 13 ∧ c2 = 10) := by
      intro hc
      simp [hc.1, hc.2] at h
    rw [contract, if_neg hp, contract_eq_self (c2 :: r) h.2]

theorem hasCRLF_contract : ∀ x : List Nat,
    hasCRCRLF x = false → hasCRLF (contract x) = false
  | [], _ => rfl
  | [c], _ => by rw [contract]; rfl
  | c :: c2 :: r, h => by
    have htail : hasCRCRLF (c2 :: r) = false := hasCRCRLF_tail c _ h
    by_cases hp : c = 13 ∧ c2 = 10
    · obtain ⟨hc, hc2⟩ := hp
      subst hc; subst hc2
      rw [contract, if_pos ⟨rfl, rfl⟩]
      exact hasCRLF_cons_of_ne 10 _ (by decide)
        (hasCRLF_contract r (hasCRCRLF_tail 10 r htail))
    · rw [contract, if_neg hp]
      have hrec := hasCRLF_contract (c2 :: r) htail
      by_cases hc : c = 13
      · subst hc
        have hc2 : c2 ≠ 10 := fun h2 => hp ⟨rfl, h2⟩
        have hhead : ¬(c2 = 13 ∧ r.head? = some 10) := by
          rintro ⟨h13, hr10⟩
          subst h13
          match r, hr10 with
          | 10 :: r', _ =>
            rw [hasCRCRLF] at h
            simp at h
        obtain ⟨t, ht⟩ : ∃ t, contract (c2 :: r) = c2 :: t := by
          have := contract_head? c2 r
          rw [if_neg hhead] at this
          match hm : contract (c2 :: r) with
          | [] => rw [hm] at this; simp at this
          | a :: t =>
            rw [hm] at this
            simp only [List.head?] at this
            exact ⟨t, by rw [Option.some_inj] at this; rw [this]⟩
        rw [ht]
        rw [ht] at hrec
        rw [hasCRLF, Bool.or_eq_false_iff]
        refine ⟨?_, hrec⟩
        simp [hc2]
      · exact hasCRLF_cons_of_ne c _ hc hrec

theorem noLFAfter_expandChunk (x : List Nat) :
    ∀ c1, noLFAfter c1 (expandChunk c1 x) = true := by
  induction x with
  | nil => intro c1; rfl
  | cons c rest ih =>
    intro c1
    by_cases h : c1 = 13 ∨ c ≠ 10
    · rw [expandChunk, if_pos h]
      rw [noLFAfter, Bool.and_eq_true]
      refine ⟨?_, ih c⟩
      rcases h with h | h
      · simp [h]
      · simp [h]
    · push_neg at h
      obtain ⟨h13, h10⟩ := h
      subst h10
      rw [expandChunk, if_neg (by simp [h13])]
      rw [noLFAfter, noLFAfter, Bool.and_eq_true, Bool.and_eq_true]
      exact ⟨by simp, by simp, ih 10⟩

theorem noLFAfter_expandChunk_any (x : List Nat) (p : Nat) :
    noLFAfter p (expandChunk 0 x) = true := by
  cases x with
  | nil => rfl
  | cons c rest =>
    by_cases h : c = 10
    · subst h
      rw [expandChunk, if_neg (by decide)]
      rw [noLFAfter, noLFAfter, Bool.and_eq_true, Bool.and_eq_true]
      exact ⟨by simp, by simp, noLFAfter_expandChunk rest 10⟩
    · rw [expandChunk, if_pos (Or.inr h)]
      rw [noLFAfter, Bool.and_eq_true]
      exact ⟨by simp [h], noLFAfter_expandChunk rest c⟩

theorem noLFAfter_append (xs : List Nat) :
    ∀ (p : Nat) (ys : List Nat), noLFAfter p xs = true →
      (∀ q, noLFAfter q ys = true) → noLFAfter p (xs ++ ys) = true := by
  induction xs with
  | nil => intro p ys _ hy; exact hy p
  | cons c rest ih =>
    intro p ys hx hy
    rw [noLFAfter, Bool.and_eq_true] at hx
    rw [List.cons_append, noLFAfter, Bool.and_eq_true]
    exact ⟨hx.1, ih c ys hx.2 hy⟩

theorem noLFAfter_rfRun (chunks : List (List Nat)) :
    ∀ (st : RFState) (p : Nat), noLFAfter p ((rfRun true st chunks).2) = true := by
  induction chunks with
  | nil => intro st p; rfl
  | cons d rest ih =>
    intro st p
    rw [rfRun]
    by_cases h : (d.take (rfHole true (rfGrow true st)).incr.toNat).isEmpty
    · rw [if_pos h]; rfl
    · rw [if_neg h]
      refine noLFAfter_append _ p _ ?_ (fun q => ih _ q)
      exact noLFAfter_expandChunk_any _ p

theorem hasCRLF_of_mem13 (l : List Nat) (h : 13 ∉ l) : hasCRLF l = false := by
  induction l with
  | nil => rfl
  | cons a t ih =>
    have ha : a ≠ 13 := fun hh => h (hh ▸ List.mem_cons_self a t)
    exact hasCRLF_cons_of_ne a t ha (ih (fun hh => h (List.mem_cons_of_mem a hh)))

theorem contract_of_all_zero (l : List Nat) (h : ∀ b ∈ l, b = 0) :
    contract l = l :=
  contract_eq_self l (hasCRLF_of_mem13 l (fun hm => by have := h 13 hm; omega))

theorem chopZeros_of_all_zero (l : List Nat) (h : ∀ b ∈ l, b = 0) :
    chopZeros l = [] := by
  unfold chopZeros
  have : l.reverse.dropWhile (fun b => b == 0) = [] := by
    rw [List.dropWhile_eq_nil_iff]
    intro x hx
    simpa using h x (List.mem_reverse.mp hx)
  rw [this]
  rfl

theorem rfInv_init (crlf : Bool) : RFInv crlf rfInit := by
  cases crlf <;> decide

theorem rfInv_prepare (crlf : Bool) (st : RFState) (h : RFInv crlf st) :
    RFInv crlf (rfGrow crlf st) ∧
    RFInv crlf (rfHole crlf (rfGrow crlf st)) ∧
    (rfHole crlf (rfGrow crlf st)).incr ≤ (rfHole crlf (rfGrow crlf st)).tail ∧
    (crlf = true →
      (rfHole crlf (rfGrow crlf st)).hole = (rfHole crlf (rfGrow crlf st)).incr) := by
  obtain ⟨h1, h2, h3, h4, h5, h6⟩ := h
  cases crlf
  · have hz : st.hole = 0 := h6 rfl
    simp [rfGrow, rfHole, RFInv]
    split_ifs with hg <;> simp_all <;> omega
  · simp [rfGrow, rfHole, RFInv]
    split_ifs with hg hh hh <;> simp_all <;> omega

theorem rfInv_consume (crlf : Bool) (st : RFState) (chunk : List Nat)
    (h : RFInv crlf st) (hn : (chunk.length : Int) ≤ st.incr)
    (ht : st.incr ≤ st.tail) (hh : crlf = true → st.hole = st.incr) :
    RFInv crlf (rfConsume crlf st chunk).1 := by
  obtain ⟨h1, h2, h3, h4, h5, h6⟩ := h
  cases crlf
  · have hz : st.hole = 0 := h6 rfl
    simp only [rfConsume, RFInv, if_false, Bool.false_eq_true]
    constructor <;> simp_all <;> omega
  · have he1 := expandChunk_length_le chunk 0
    have he2 := expandChunk_length_ge chunk 0
    have hhe : st.hole = st.incr := hh rfl
    simp only [rfConsume, RFInv, if_true]
    refine ⟨?_, ?_, ?_, ?_, ?_, ?_⟩ <;> simp_all <;> omega

theorem rfInv_run (crlf : Bool) (chunks : List (List Nat)) :
    ∀ st, RFInv crlf st → RFInv crlf (rfRun crlf st chunks).1 := by
  induction chunks with
  | nil => intro st h; exact h
  | cons d rest ih =>
    intro st h
    rw [rfRun]
    obtain ⟨-, hinv, htail, hhole⟩ := rfInv_prepare crlf st h
    by_cases hc : (d.take (rfHole crlf (rfGrow crlf st)).incr.toNat).isEmpty
    · rw [if_pos hc]; exact hinv
    · rw [if_neg hc]
      refine ih _ (rfInv_consume crlf _ _ hinv ?_ htail hhole)
      have hlen := List.length_take_le
        (rfHole crlf (rfGrow crlf st)).incr.toNat d
      have hpos : 0 < (rfHole crlf (rfGrow crlf st)).incr := hinv.2.2.2.1
      omega

/- ------------------------------------------------------------------ -/
/- Claims                                                              -/
/- ------------------------------------------------------------------ -/

/-- C1: the look-behind byte is NOT carried across chunk boundaries — the
C code re-initializes `c1 = 0` at every loop iteration (line 168), so
ingesting the chunks "a\r" and "\nb" with expansion enabled finalizes
"a\r\r\nb" (5 bytes): the LF that begins the second chunk is expanded even
though the previous chunk ended in CR, contrary to the claim (and to the
program's own usage text, which promises to replace only lone LF bytes). -/
theorem read_file_chunk_boundary :
    read_file true [[97, 13], [10, 98]] = [97, 13, 13, 10, 98] := by decide

/-- C2 counterexample: contraction is not idempotent as claimed — the
input CR CR LF contracts to CR LF, which still contains a CR LF pair and
contracts again to LF. -/
theorem contract_not_idempotent :
    ¬ contract (contract [13, 13, 10]) = contract [13, 13, 10] := by decide

/-- C2 (amended): for every byte sequence containing no CR CR LF triple,
one contraction pass leaves no CR LF pair, and contraction is idempotent. -/
theorem contract_idempotent_of_no_crcrlf (x : List Nat)
    (h : hasCRCRLF x = false) :
    hasCRLF (contract x) = false ∧ contract (contract x) = contract x :=
  ⟨hasCRLF_contract x h, contract_eq_self _ (hasCRLF_contract x h)⟩

theorem contract_idempotent_witness :
    hasCRCRLF [97, 13, 10, 98] = false ∧
    (hasCRLF (contract [97, 13, 10, 98]) = false ∧
     contract (contract [97, 13, 10, 98]) = contract [97, 13, 10, 98]) :=
  ⟨by decide, contract_idempotent_of_no_crcrlf [97, 13, 10, 98] (by decide)⟩

/-- C3 counterexample: emission of a buffer holding a single zero byte
writes nothing at all — the trim loop `while (*--pbOut == 0 && --sz)`
decrements `sz` to 0 on the lone zero byte, and `write_file` then returns
FALSE without calling `WriteFile` — it does not output one zero byte. -/
theorem write_file_single_zero :
    write_file false [0] = none ∧ write_file true [0] = none ∧
    write_file false [0] ≠ some [0] := by decide

/-- C3 (amended): for every non-empty all-zero buffer the trailing-zero
trim reduces the logical length to 0 — the very first byte included — so
emission writes nothing and returns FALSE. -/
theorem write_file_all_zero_none (lf : Bool) (buf : List Nat)
    (h : ∀ b ∈ buf, b = 0) : write_file lf buf = none := by
  have hz : chopZeros (if lf then contract buf else buf) = [] := by
    cases lf
    · simpa using chopZeros_of_all_zero buf h
    · simp only [if_true]
      rw [contract_of_all_zero buf h]
      exact chopZeros_of_all_zero buf h
  simp [write_file, hz]

theorem write_file_all_zero_witness :
    (∀ b ∈ ([0, 0] : List Nat), b = 0) ∧ write_file false [0, 0] = none :=
  ⟨by decide, write_file_all_zero_none false [0, 0] (by decide)⟩

/-- C4: round trip — for every byte sequence without CR, contracting the
LF → CRLF expansion gives back the original sequence. -/
theorem contract_expand_roundtrip (x : List Nat) (h : 13 ∉ x) :
    contract (expandChunk 0 x) = x :=
  contract_expandChunk x 0 (by decide) h

theorem contract_expand_roundtrip_witness :
    13 ∉ ([97, 10, 98] : List Nat) ∧
    contract (expandChunk 0 [97, 10, 98]) = [97, 10, 98] :=
  ⟨by decide, contract_expand_roundtrip [97, 10, 98] (by decide)⟩

/-- C5: the buffer invariant — allocated size equals done + hole + tail,
hole and tail non-negative, hole zero when expansion is disabled — holds
initially, after the growth step, after the hole-growth step, after a
chunk is consumed, and after any complete run; moreover the bytes read in
one iteration never exceed the tail, and with expansion enabled never
exceed the hole, so the in-place write cursor cannot overrun the read
cursor. -/
theorem read_file_buffer_invariant (crlf : Bool) (st : RFState)
    (d : List Nat) (chunks : List (List Nat)) (h : RFInv crlf st) :
    RFInv crlf rfInit ∧
    RFInv crlf (rfGrow crlf st) ∧
    RFInv crlf (rfHole crlf (rfGrow crlf st)) ∧
    RFInv crlf (rfConsume crlf (rfHole crlf (rfGrow crlf st))
      (d.take (rfHole crlf (rfGrow crlf st)).incr.toNat)).1 ∧
    ((d.take (rfHole crlf (rfGrow crlf st)).incr.toNat).length : Int)
      ≤ (rfHole crlf (rfGrow crlf st)).tail ∧
    (crlf = true →
      ((d.take (rfHole crlf (rfGrow crlf st)).incr.toNat).length : Int)
        ≤ (rfHole crlf (rfGrow crlf st)).hole) ∧
    RFInv crlf (rfRun crlf st chunks).1 := by
  obtain ⟨hg, hp, ht, hh⟩ := rfInv_prepare crlf st h
  have hlen := List.length_take_le (rfHole crlf (rfGrow crlf st)).incr.toNat d
  have hpos : 0 < (rfHole crlf (rfGrow crlf st)).incr := hp.2.2.2.1
  have hn : ((d.take (rfHole crlf (rfGrow crlf st)).incr.toNat).length : Int)
      ≤ (rfHole crlf (rfGrow crlf st)).incr := by omega
  refine ⟨rfInv_init crlf, hg, hp, rfInv_consume crlf _ _ hp hn ht hh,
    by omega, fun hc => ?_, rfInv_run crlf chunks st h⟩
  rw [hh hc]
  exact hn

theorem read_file_buffer_invariant_witness :
    RFInv true rfInit ∧
    (RFInv true rfInit ∧
     RFInv true (rfGrow true rfInit) ∧
     RFInv true (rfHole true (rfGrow true rfInit)) ∧
     RFInv true (rfConsume true (rfHole true (rfGrow true rfInit))
       (([10] : List Nat).take (rfHole true (rfGrow true rfInit)).incr.toNat)).1 ∧
     ((([10] : List Nat).take
         (rfHole true (rfGrow true rfInit)).incr.toNat).length : Int)
       ≤ (rfHole true (rfGrow true rfInit)).tail ∧
     (true = true →
       ((([10] : List Nat).take
           (rfHole true (rfGrow true rfInit)).incr.toNat).length : Int)
         ≤ (rfHole true (rfGrow true rfInit)).hole) ∧
     RFInv true (rfRun true rfInit [[10]]).1) :=
  ⟨by decide, read_file_buffer_invariant true rfInit [10] [[10]] (by decide)⟩

/-- C6: expansion growth bound — the LF → CRLF expansion of a byte
sequence is at most twice as long as the input. -/
theorem expand_growth_bound (x : List Nat) :
    (expandChunk 0 x).length ≤ 2 * x.length :=
  expandChunk_length_le x 0

/-- C7: a buffer of logical content "hi" followed by three padding zero
bytes emits exactly the two bytes "hi", whether or not contraction was
requested. -/
theorem write_file_trims_trailing_zeros :
    write_file false [104, 105, 0, 0, 0] = some [104, 105] ∧
    write_file true [104, 105, 0, 0, 0] = some [104, 105] := by decide

/-- C8: ingestion terminates as soon as a read delivers zero bytes — the
chunks after the first empty read are never consulted — and an
immediately-exhausted source yields a zero-length finalized buffer. -/
theorem read_file_stops_on_empty_read (crlf : Bool) (st : RFState)
    (pre rest : List (List Nat)) :
    rfRun crlf st (pre ++ [] :: rest) = rfRun crlf st (pre ++ [[]]) ∧
    read_file crlf ([] :: rest) = [] := by
  constructor
  · induction pre generalizing st with
    | nil => simp [rfRun]
    | cons d pre ih =>
      simp only [List.cons_append, rfRun]
      by_cases hc : (d.take (rfHole crlf (rfGrow crlf st)).incr.toNat).isEmpty
      · rw [if_pos hc, if_pos hc]
      · rw [if_neg hc, if_neg hc]
        simp only [List.append_eq]
        rw [ih]
  · simp [read_file, rfRun]

/-- C9: after ingestion with expansion enabled, whatever the input and its
chunking, every LF in the finalized buffer is immediately preceded by a
CR, and the buffer never begins with a bare LF. -/
theorem read_file_no_bare_lf (chunks : List (List Nat)) :
    noLFAfter 0 (read_file true chunks) = true :=
  noLFAfter_rfRun chunks rfInit 0

/-- C10: `write_file` writes nothing and returns FALSE exactly when the
logical length left after optional contraction and the trailing-zero trim
is zero; in particular a zero-length buffer is never written. -/
theorem write_file_empty_none (lf : Bool) (buf : List Nat) :
    (write_file lf buf = none ↔
      chopZeros (if lf then contract buf else buf) = []) ∧
    write_file lf [] = none := by
  constructor
  · simp only [write_file]
    by_cases hc : (chopZeros (if lf then contract buf else buf)).isEmpty
    · rw [if_pos hc]
      simp only [List.isEmpty_iff] at hc
      simp [hc]
    · rw [if_neg hc]
      simp only [List.isEmpty_iff] at hc
      simp [hc]
  · cases lf <;> decide

end Win32Yang
